import Mathlib

set_option maxRecDepth 8000

/-!
Verification development for the trading-momentum-transformer feature
pipeline (`mom_trans/data_prep.py`).

The embedding models:
* the mid-price row filter at the top of `deep_momentum_strategy_features`
  (`~isna | ~isnull | (mid > 1e-8)`);
* winsorization against the exponentially weighted (adjusted, bias-corrected)
  mean/std envelope, `np.minimum`/`np.maximum` against `mean ± 5·std`;
* the normalized-return columns `calc_returns(srs, h) / second_vol / sqrt(h)`
  for the fixed horizon list built from `SEC_PER_DAY = 23400`;
* the trend-signal bank, calendar extraction, the final `dropna()`;
* `read_changepoint_results_and_fill_na` (ffill, dropna, recompute of
  `cp_location_norm`), and `include_changepoint_features` (the pandas
  `merge` on `["date", "ticker"]`, default inner join, then
  `features.index = features["date"]`).

External primitives (`calc_returns`, `calc_second_vol`,
`calc_vol_scaled_returns`, `MACDStrategy.calc_signal`) live outside the
repository core and are taken as function parameters, constrained only by
length preservation where a claim needs it.  Missing float values (`NaN`)
are modelled with `Option`; a pandas exponentially weighted computation is
parameterized by the decay weight `b` (pandas derives `b = 2 ^ (-1/252)`
from `halflife=252`; every theorem below is proved for an arbitrary decay,
hence in particular for that one).
-/

namespace DataPrep

/-- `mom_trans/data_prep.py` line 14: seconds per (trading) day. -/
def SEC_PER_DAY : ℕ := 23400

/-- The winsorization clip threshold (`VOL_THRESHOLD = 5`). -/
def VOL_THRESHOLD : ℕ := 5

/-- The near-zero price threshold `1e-8` from the mid filter. -/
def priceEps : ℚ := mkRat 1 100000000

/-- The row-keep predicate of the mid filter
`~df.mid.isna() | ~df.mid.isnull() | (df.mid > 1e-8)`.
`isnull` is a pandas alias of `isna`, embedded as the same test; a missing
value compares false against `1e-8` (NaN comparisons are false). -/
def midKeep (m : Option ℚ) : Bool :=
  !m.isNone || !m.isNone ||
    (match m with
     | some v => decide (v > priceEps)
     | none => false)

/-- The mid filter applied to the price column. -/
def midFilter (mids : List (Option ℚ)) : List (Option ℚ) :=
  mids.filter midKeep

/-- The eight normalized-return horizons, in seconds, exactly as coded:
`1, 60, 3600, SEC_PER_DAY, 21·SEC_PER_DAY, 63·SEC_PER_DAY,
126·SEC_PER_DAY, 252·SEC_PER_DAY`. -/
def normOffsets : List ℕ :=
  [1, 60, 3600, SEC_PER_DAY, 21 * SEC_PER_DAY, 63 * SEC_PER_DAY,
   126 * SEC_PER_DAY, 252 * SEC_PER_DAY]

/-- The horizon set the specification text asserts (day = 86400 s). -/
def specOffsets : List ℕ :=
  [1, 60, 3600, 86400, 21 * 86400, 63 * 86400, 126 * 86400, 252 * 86400]

/-- The eleven `(short_window, long_window)` trend pairs. -/
def trendCombinations : List (ℕ × ℕ) :=
  [(60, 300), (300, 900), (600, 1800), (1800, 7200), (3600, 14400),
   (7200, 18000), (14400, 23400), (23400, 117000), (187200, 561600),
   (374400, 1123200), (748800, 2246400)]

/-! ## Changepoint reader (`read_changepoint_results_and_fill_na`) -/

/-- One row of a changepoint CSV: the timestamp index plus the columns
`t`, `cp_location`, `cp_score`, `cp_location_norm`; a missing detection
leaves the data columns as `none`. -/
structure CPRow where
  date : ℤ
  t : Option ℚ
  cp_location : Option ℚ
  cp_score : Option ℚ
  cp_location_norm : Option ℚ
deriving DecidableEq, Repr

/-- An all-missing changepoint row (timestamp only). -/
def cpBlank : CPRow := ⟨0, none, none, none, none⟩

/-- Column-wise forward fill (`DataFrame.ffill`): each missing field takes
the most recent earlier value of the same column, carried by `carry`. -/
def ffillCP (carry : CPRow) : List CPRow → List CPRow
  | [] => []
  | r :: rs =>
    let c : CPRow :=
      ⟨r.date, r.t.orElse (fun _ => carry.t),
       r.cp_location.orElse (fun _ => carry.cp_location),
       r.cp_score.orElse (fun _ => carry.cp_score),
       r.cp_location_norm.orElse (fun _ => carry.cp_location_norm)⟩
    c :: ffillCP c rs

/-- `dropna()` on the changepoint frame: keep a row only when every data
column is present. -/
def dropnaCP (rows : List CPRow) : List CPRow :=
  rows.filter (fun r =>
    r.t.isSome && r.cp_location.isSome && r.cp_score.isSome &&
      r.cp_location_norm.isSome)

/-- The `assign` step: recompute `cp_location_norm = (t - cp_location) / L`
from the (filled) `t` and `cp_location` columns, with NaN propagation. -/
def assignNorm (L : ℤ) (rows : List CPRow) : List CPRow :=
  rows.map (fun r =>
    { r with
      cp_location_norm :=
        r.t.bind (fun tv => r.cp_location.map (fun cv => (tv - cv) / (L : ℚ))) })

/-- `read_changepoint_results_and_fill_na`: read, forward-fill, drop rows
that are still missing, then recompute the normalized location. -/
def readerCP (L : ℤ) (rows : List CPRow) : List CPRow :=
  assignNorm L (dropnaCP (ffillCP cpBlank rows))

/-! ## Changepoint merge (`include_changepoint_features`) -/

/-- A feature-table row reduced to the merge-relevant parts: the `date`
and `ticker` key and an opaque payload standing for the remaining feature
columns. -/
structure FeatRow where
  date : ℤ
  ticker : String
  value : ℚ
deriving DecidableEq, Repr

/-- A prepared changepoint record after `prepare_cpd_features`: keyed by
`date` and `ticker`, carrying `cp_location_norm` and `cp_score`. -/
structure CPFeat where
  date : ℤ
  ticker : String
  cp_location_norm : Option ℚ
  cp_score : Option ℚ
deriving DecidableEq, Repr

/-- A merged row: feature payload plus the changepoint columns renamed to
`cp_rl_<L>` / `cp_score_<L>` (fields `cp_rl`, `cp_score` here), and the
frame index `idx`, which `include_changepoint_features` sets to the `date`
column after the merge. -/
structure MergedRow where
  date : ℤ
  ticker : String
  value : ℚ
  cp_rl : Option ℚ
  cp_score : Option ℚ
  idx : ℤ
deriving DecidableEq, Repr

/-- The combined row produced for a feature row and a matching changepoint
record: the index is reset to the date. -/
def mkMerged (f : FeatRow) (c : CPFeat) : MergedRow :=
  ⟨f.date, f.ticker, f.value, c.cp_location_norm, c.cp_score, f.date⟩

/-- The pandas `merge(..., on=["date", "ticker"])` with the default inner
join: each feature row pairs with every changepoint record sharing its
key, in left order; unmatched feature rows disappear. -/
def mergeInner (feats : List FeatRow) (cpd : List CPFeat) : List MergedRow :=
  match feats with
  | [] => []
  | f :: fs =>
    (cpd.filter (fun c => c.date == f.date && c.ticker == f.ticker)).map
        (mkMerged f) ++ mergeInner fs cpd

/-! ## Winsorization (`srs` column)

pandas `ewm(halflife=H)` with the default `adjust=True` weights the
observations `x_0 … x_t` by `b^(t-i)` where `b = 2^(-1/H)`;
`ewm.mean()` is the weighted average, and `ewm.std()` (default
`bias=False`) is the square root of the weighted variance multiplied by
the debiasing factor `(Σw)² / ((Σw)² - Σw²)`, undefined (NaN) for a
single observation.  The code then clips `srs` to
`mean ± VOL_THRESHOLD * std`; NaN propagates through `np.minimum` /
`np.maximum`, so row 0 of `srs` is NaN. -/

/-- Weighted sum `Σ b^(n-1-i)·x_i` of a series, written as a Horner fold
(the most recent observation has weight 1). -/
noncomputable def ewmWSum (b : ℝ) (xs : List ℝ) : ℝ :=
  xs.foldl (fun a x => a * b + x) 0

/-- Total weight `Σ b^(n-1-i)` over `n` observations. -/
noncomputable def ewmWTot (b : ℝ) (n : ℕ) : ℝ :=
  ewmWSum b (List.replicate n 1)

/-- The exponentially weighted mean of a series (pandas `ewm.mean()` at
the final position of `xs`). -/
noncomputable def ewmMeanR (b : ℝ) (xs : List ℝ) : ℝ :=
  ewmWSum b xs / ewmWTot b xs.length

/-- The biased exponentially weighted variance: weighted mean of squared
deviations from `ewmMeanR`. -/
noncomputable def ewmVarBiased (b : ℝ) (xs : List ℝ) : ℝ :=
  ewmWSum b (xs.map (fun x => (x - ewmMeanR b xs) ^ 2)) / ewmWTot b xs.length

/-- The `bias=False` debiasing factor `(Σw)² / ((Σw)² - Σ(w²))`; note
`Σ(w²) = Σ (b²)^(n-1-i)`. -/
noncomputable def ewmDebias (b : ℝ) (n : ℕ) : ℝ :=
  ewmWTot b n ^ 2 / (ewmWTot b n ^ 2 - ewmWTot (b * b) n)

/-- The debiased exponentially weighted variance (square of
pandas `ewm.std()`). -/
noncomputable def ewmVarR (b : ℝ) (xs : List ℝ) : ℝ :=
  ewmVarBiased b xs * ewmDebias b xs.length

/-- The winsorization clip of one observation against the envelope
`mean ± 5·sqrt(var)`:
`np.maximum(np.minimum(x, m + 5·s), m - 5·s)`. -/
noncomputable def clipR (x m v : ℝ) : ℝ :=
  max (min x (m + (VOL_THRESHOLD : ℝ) * Real.sqrt v)) (m - (VOL_THRESHOLD : ℝ) * Real.sqrt v)

/-- The `srs` column: each position is clipped against the expanding-window
envelope ending there; position 0 is `none` because the debiased std of a
single observation is NaN, which `np.minimum`/`np.maximum` propagate. -/
noncomputable def winsSrs (b : ℝ) (xs : List ℝ) : List (Option ℝ) :=
  (List.range xs.length).map (fun t =>
    if t = 0 then none
    else some (clipR (xs.getD t 0) (ewmMeanR b (xs.take (t + 1)))
      (ewmVarR b (xs.take (t + 1)))))

/-- The values of an Option column that survive a NaN drop. -/
def emitted (xs : List (Option ℝ)) : List ℝ :=
  xs.filterMap id

/-! ### Integer evaluation layer

Exact evaluation of the winsorization envelope on concrete data: with
decay `b = bn/bd` and integer observations, the weighted sums scale to
integers.  `wScaled bn bd xs` computes `Σ b^(n-1-i)·x_i · bd^n` as an
integer (its `decide`-friendly normal form); the bridge lemmas below
relate it to `ewmWSum`. -/

/-- An integer series viewed as a real series. -/
noncomputable def castList (xs : List ℤ) : List ℝ :=
  xs.map Int.cast

/-- Integer Horner state: running scaled sum and the scale `bd^k`. -/
def wStep (bn bd : ℤ) (s : ℤ × ℤ) (x : ℤ) : ℤ × ℤ :=
  (s.1 * bn + x * (s.2 * bd), s.2 * bd)

/-- `Σ b^(n-1-i)·x_i · bd^n` for `b = bn/bd`, as an integer fold. -/
def wScaled (bn bd : ℤ) (xs : List ℤ) : ℤ :=
  (xs.foldl (wStep bn bd) (0, 1)).1

/-- Scaled total weight `Σ b^(n-1-i) · bd^n`. -/
def wTotScaled (bn bd : ℤ) (n : ℕ) : ℤ :=
  wScaled bn bd (List.replicate n 1)

/-- The integer certificate that position `t` of `xs` lies inside its own
envelope: with `W, SP, V, Dev` the scaled total weight, scaled weighted
sum, scaled sum of squared weights and scaled weighted squared-deviation
sum of the prefix `xs.take (t+1)`, the envelope condition
`(x_t - mean)² ≤ 25·var` clears denominators to
`(x_t·W - SP)²·(W·(W² - V)) ≤ 25·Dev·W²`. -/
def inEnvCheck (bn bd : ℤ) (xs : List ℤ) (t : ℕ) : Bool :=
  let pre := xs.take (t + 1)
  let n := pre.length
  let W := wTotScaled bn bd n
  let SP := wScaled bn bd pre
  let V := wTotScaled (bn * bn) (bd * bd) n
  let Dev := wScaled bn bd (pre.map (fun x => (x * W - SP) * (x * W - SP)))
  let x := xs.getD t 0
  decide (0 < W) && decide (0 < W * W - V) &&
    decide ((x * W - SP) * (x * W - SP) * (W * (W * W - V)) ≤ 25 * Dev * (W * W))

/-- Certificate that no position of `xs` (beyond position 0) is clipped. -/
def noClipCheck (bn bd : ℤ) (xs : List ℤ) : Bool :=
  (List.range xs.length).all (fun t => t == 0 || inEnvCheck bn bd xs t)

/-- The integer certificate that position `t` of `xs` lies strictly above
its envelope (so the clip replaces it by `mean + 5·std < x_t`). -/
def aboveEnvCheck (bn bd : ℤ) (xs : List ℤ) (t : ℕ) : Bool :=
  let pre := xs.take (t + 1)
  let n := pre.length
  let W := wTotScaled bn bd n
  let SP := wScaled bn bd pre
  let V := wTotScaled (bn * bn) (bd * bd) n
  let Dev := wScaled bn bd (pre.map (fun x => (x * W - SP) * (x * W - SP)))
  let x := xs.getD t 0
  decide (0 < W) && decide (0 < W * W - V) && decide (0 ≤ Dev) &&
    decide (SP ≤ x * W) &&
    decide (25 * Dev * (W * W) < (x * W - SP) * (x * W - SP) * (W * (W * W - V)))

/-- The counterexample decay for winsorization idempotence, `363/364`
(within 0.012% of the coded decay `2^(-1/252) ≈ 0.9972521`). -/
def ceNum : ℤ := 363

/-- Denominator of the counterexample decay. -/
def ceDen : ℤ := 364

/-- The counterexample input series: one large tick, thirty flat ticks,
then a jump. -/
def ceSeries : List ℤ := 100 :: (List.replicate 30 0 ++ [1])

/-! ## Feature assembly (`deep_momentum_strategy_features`) -/

/-- The external numeric primitives, per the capability interface of the
spec: return-at-offset, volatility, volatility-scaled returns, and the
trend signal.  All operate on NaN-carrying columns. -/
structure ExternalFns where
  returnsFn : List (Option ℝ) → ℕ → List (Option ℝ)
  volFn : List (Option ℝ) → List (Option ℝ)
  vsrFn : List (Option ℝ) → List (Option ℝ) → List (Option ℝ)
  macdFn : List (Option ℝ) → ℕ → ℕ → List (Option ℝ)

/-- The eight calendar accessors applied to a timestamp (pandas
`.hour`, `.minute`, `.second`, `.dayofweek`, `.day`,
`.isocalendar().week`, `.month`, `.year`). -/
structure CalAccs where
  hourFn : ℤ → ℤ
  minuteFn : ℤ → ℤ
  secondFn : ℤ → ℤ
  dowFn : ℤ → ℤ
  domFn : ℤ → ℤ
  weekFn : ℤ → ℤ
  monthFn : ℤ → ℤ
  yearFn : ℤ → ℤ

/-- The nine calendar columns. -/
structure CalendarColumns where
  hour_of_day : List ℤ
  minute_of_hour : List ℤ
  second_of_minute : List ℤ
  day_of_week : List ℤ
  day_of_month : List ℤ
  week_of_year : List ℤ
  month_of_year : List ℤ
  year : List ℤ
  date : List ℤ
deriving DecidableEq, Repr

/-- Calendar extraction: on a non-empty index each field is derived from
the timestamps; on an empty frame the code takes the explicit
`else` branch assigning an empty sequence to every field. -/
def calendarCols (accs : CalAccs) (idx : List ℤ) : CalendarColumns :=
  match idx with
  | [] => ⟨[], [], [], [], [], [], [], [], []⟩
  | _ =>
    ⟨idx.map accs.hourFn, idx.map accs.minuteFn, idx.map accs.secondFn,
     idx.map accs.dowFn, idx.map accs.domFn, idx.map accs.weekFn,
     idx.map accs.monthFn, idx.map accs.yearFn, idx⟩

/-- `Series.shift(-1)`: each row takes the next row's value and the last
row becomes missing. -/
def shiftm1 (xs : List (Option ℝ)) : List (Option ℝ) :=
  match xs with
  | [] => []
  | _ :: rest => rest ++ [none]

/-- One normalized-return column:
`calc_returns(srs, h) / second_vol / sqrt(h)` with NaN propagation. -/
noncomputable def normReturnCol (rawRet vol : List (Option ℝ)) (h : ℕ) : List (Option ℝ) :=
  List.zipWith (fun r v =>
    r.bind (fun rv => v.map (fun vv => rv / vv / Real.sqrt (h : ℝ)))) rawRet vol

/-- The rows surviving the mid filter. -/
def keptRows (rows : List (ℤ × Option ℚ)) : List (ℤ × Option ℚ) :=
  rows.filter (fun r => midKeep r.2)

/-- Every column of the assembled per-asset frame, in order: mid, srs,
second_returns, second_vol, target_returns, the eight normalized returns,
the eleven trend signals, and the nine calendar columns (embedded as
always-present real columns). -/
noncomputable def assemblerCols (fns : ExternalFns) (accs : CalAccs) (b : ℝ)
    (rows : List (ℤ × Option ℚ)) : List (List (Option ℝ)) :=
  let kept := keptRows rows
  let mid : List (Option ℝ) := kept.map (fun r => r.2.map (fun q => (q : ℝ)))
  let srs := winsSrs b (kept.map (fun r => ((r.2.getD 0 : ℚ) : ℝ)))
  let secRet := fns.returnsFn srs 1
  let vol := fns.volFn secRet
  let target := shiftm1 (fns.vsrFn secRet vol)
  let norms := normOffsets.map (fun h => normReturnCol (fns.returnsFn srs h) vol h)
  let macds := trendCombinations.map (fun p => fns.macdFn srs p.1 p.2)
  let cal := calendarCols accs (kept.map (fun r => r.1))
  [mid, srs, secRet, vol, target] ++ norms ++ macds ++
    ([cal.hour_of_day, cal.minute_of_hour, cal.second_of_minute,
      cal.day_of_week, cal.day_of_month, cal.week_of_year,
      cal.month_of_year, cal.year, cal.date].map
        (fun c => c.map (fun z => some ((z : ℤ) : ℝ))))

/-- The final `dropna()`: the indices of the rows kept in the assembled
frame, namely those with every column present. -/
noncomputable def assemblerSurvivors (fns : ExternalFns) (accs : CalAccs) (b : ℝ)
    (rows : List (ℤ × Option ℚ)) : List ℕ :=
  (List.range (keptRows rows).length).filter (fun i =>
    (assemblerCols fns accs b rows).all (fun col => (col.getD i none).isSome))

/-! # Theorems -/

/-! ## Clip envelope lemmas -/

theorem clipR_eq (x m v : ℝ) :
    clipR x m v = max (min x (m + 5 * Real.sqrt v)) (m - 5 * Real.sqrt v) := by
  unfold clipR VOL_THRESHOLD
  norm_num

theorem sqrt_25_mul (v : ℝ) : Real.sqrt (25 * v) = 5 * Real.sqrt v := by
  rw [show (25 : ℝ) = 5 ^ 2 by norm_num, Real.sqrt_mul (by positivity),
    Real.sqrt_sq (by norm_num : (0:ℝ) ≤ 5)]

theorem clipR_le_hi (x m v : ℝ) : clipR x m v ≤ m + 5 * Real.sqrt v := by
  have hs : 0 ≤ Real.sqrt v := Real.sqrt_nonneg v
  rw [clipR_eq]
  apply max_le (min_le_right _ _)
  linarith

theorem lo_le_clipR (x m v : ℝ) : m - 5 * Real.sqrt v ≤ clipR x m v := by
  rw [clipR_eq]
  exact le_max_right _ _

theorem clipR_eq_self (x m v : ℝ) (h : (x - m) ^ 2 ≤ 25 * v) : clipR x m v = x := by
  have habs : |x - m| ≤ 5 * Real.sqrt v := by
    have h1 : Real.sqrt ((x - m) ^ 2) ≤ Real.sqrt (25 * v) := Real.sqrt_le_sqrt h
    rw [Real.sqrt_sq_eq_abs, sqrt_25_mul] at h1
    exact h1
  rcases abs_le.mp habs with ⟨hlo, hhi⟩
  rw [clipR_eq, min_eq_left (by linarith), max_eq_left (by linarith)]

theorem clipR_eq_hi (x m v : ℝ) (h : m + 5 * Real.sqrt v ≤ x) :
    clipR x m v = m + 5 * Real.sqrt v := by
  have hs : 0 ≤ Real.sqrt v := Real.sqrt_nonneg v
  rw [clipR_eq, min_eq_right h, max_eq_left (by linarith)]

theorem clipR_idem (x m v : ℝ) :
    clipR (clipR x m v) m v = clipR x m v := by
  have hhi : clipR x m v ≤ m + 5 * Real.sqrt v := clipR_le_hi x m v
  have hlo : m - 5 * Real.sqrt v ≤ clipR x m v := lo_le_clipR x m v
  conv_lhs => rw [clipR_eq]
  rw [min_eq_left hhi, max_eq_left hlo]

/-! ## Bridging the integer evaluation layer to the real envelope -/

theorem foldl_wStep_snd (bn bd : ℤ) (xs : List ℤ) : ∀ (N p : ℤ),
    (xs.foldl (wStep bn bd) (N, p)).2 = p * bd ^ xs.length := by
  induction xs with
  | nil => intro N p; simp
  | cons x xs ih =>
    intro N p
    simp only [List.foldl_cons, List.length_cons, wStep, ih, pow_succ]
    ring

theorem foldl_wStep_fst (bn bd : ℤ) (hbd : (bd : ℝ) ≠ 0) (xs : List ℤ) :
    ∀ (N p : ℤ), (p : ℝ) ≠ 0 →
    ((xs.foldl (wStep bn bd) (N, p)).1 : ℝ) / ((xs.foldl (wStep bn bd) (N, p)).2 : ℝ)
      = List.foldl (fun a x => a * ((bn : ℝ) / bd) + x) ((N : ℝ) / p) (castList xs) := by
  induction xs with
  | nil => intro N p hp; simp [castList]
  | cons x xs ih =>
    intro N p hp
    have hpbd : ((p * bd : ℤ) : ℝ) ≠ 0 := by
      push_cast
      exact mul_ne_zero hp hbd
    have step : (N : ℝ) / p * ((bn : ℝ) / bd) + (Int.cast x : ℝ)
        = ((N * bn + x * (p * bd) : ℤ) : ℝ) / ((p * bd : ℤ) : ℝ) := by
      push_cast at hpbd ⊢
      field_simp
      try ring
    show ((List.foldl (wStep bn bd) (wStep bn bd (N, p) x) xs).1 : ℝ)
        / ((List.foldl (wStep bn bd) (wStep bn bd (N, p) x) xs).2 : ℝ)
      = List.foldl (fun a y => a * ((bn : ℝ) / bd) + y)
          ((N : ℝ) / p * ((bn : ℝ) / bd) + (Int.cast x : ℝ)) (castList xs)
    rw [step]
    have hstep : wStep bn bd (N, p) x = (N * bn + x * (p * bd), p * bd) := rfl
    rw [hstep]
    exact ih _ _ hpbd

theorem ewmWSum_cast (bn bd : ℤ) (hbd : (bd : ℝ) ≠ 0) (xs : List ℤ) :
    ewmWSum ((bn : ℝ) / bd) (castList xs)
      = (wScaled bn bd xs : ℝ) / (bd : ℝ) ^ xs.length := by
  have h := foldl_wStep_fst bn bd hbd xs 0 1 (by norm_num)
  have h2 := foldl_wStep_snd bn bd xs 0 1
  unfold ewmWSum wScaled
  rw [h2] at h
  push_cast at h
  norm_num at h
  rw [← h]

theorem ewmWTot_cast (bn bd : ℤ) (hbd : (bd : ℝ) ≠ 0) (n : ℕ) :
    ewmWTot ((bn : ℝ) / bd) n = (wTotScaled bn bd n : ℝ) / (bd : ℝ) ^ n := by
  unfold ewmWTot wTotScaled
  have hrep : (List.replicate n (1 : ℝ)) = castList (List.replicate n (1 : ℤ)) := by
    simp [castList]
  rw [hrep, ewmWSum_cast bn bd hbd]
  simp

theorem ewmWSum_mul_right (b c : ℝ) (xs : List ℝ) :
    ewmWSum b (xs.map (fun x => x * c)) = ewmWSum b xs * c := by
  unfold ewmWSum
  have aux : ∀ (l : List ℝ) (a : ℝ),
      List.foldl (fun a x => a * b + x) (a * c) (l.map (fun x => x * c))
        = (List.foldl (fun a x => a * b + x) a l) * c := by
    intro l
    induction l with
    | nil => intro a; simp
    | cons x l ih =>
      intro a
      simp only [List.map_cons, List.foldl_cons]
      have : a * c * b + x * c = (a * b + x) * c := by ring
      rw [this, ih]
  have := aux xs 0
  simpa using this

theorem ewm_eval (bn bd : ℤ) (pre : List ℤ) (W SP V Dev : ℤ) (hbd : (bd : ℝ) ≠ 0)
    (hWdef : W = wTotScaled bn bd pre.length)
    (hSPdef : SP = wScaled bn bd pre)
    (hVdef : V = wTotScaled (bn * bn) (bd * bd) pre.length)
    (hDevdef : Dev = wScaled bn bd (pre.map (fun x => (x * W - SP) * (x * W - SP))))
    (hW : 0 < W) (hWV : 0 < W * W - V) :
    ewmMeanR ((bn : ℝ) / bd) (castList pre) = (SP : ℝ) / (W : ℝ) ∧
    ewmVarR ((bn : ℝ) / bd) (castList pre)
      = (Dev : ℝ) / ((W : ℝ) * ((W : ℝ) * (W : ℝ) - (V : ℝ))) := by
  have hlen : (castList pre).length = pre.length := by simp [castList]
  have hWR : (0 : ℝ) < (W : ℝ) := by exact_mod_cast hW
  have hWne : (W : ℝ) ≠ 0 := ne_of_gt hWR
  have hWVR : (0 : ℝ) < (W : ℝ) * (W : ℝ) - (V : ℝ) := by exact_mod_cast hWV
  have hWVne : (W : ℝ) * (W : ℝ) - (V : ℝ) ≠ 0 := ne_of_gt hWVR
  have hbdn : (bd : ℝ) ^ pre.length ≠ 0 := pow_ne_zero _ hbd
  have hsum : ewmWSum ((bn : ℝ) / bd) (castList pre)
      = (SP : ℝ) / (bd : ℝ) ^ pre.length := by
    rw [hSPdef]; exact ewmWSum_cast bn bd hbd pre
  have htot : ewmWTot ((bn : ℝ) / bd) pre.length
      = (W : ℝ) / (bd : ℝ) ^ pre.length := by
    rw [hWdef]; exact ewmWTot_cast bn bd hbd pre.length
  have hmean : ewmMeanR ((bn : ℝ) / bd) (castList pre) = (SP : ℝ) / (W : ℝ) := by
    unfold ewmMeanR
    rw [hlen, hsum, htot]
    field_simp
  have hbd2 : ((bd * bd : ℤ) : ℝ) ≠ 0 := by
    push_cast
    exact mul_ne_zero hbd hbd
  have hb2 : ((bn : ℝ) / bd) * ((bn : ℝ) / bd) = ((bn * bn : ℤ) : ℝ) / ((bd * bd : ℤ) : ℝ) := by
    push_cast
    rw [div_mul_div_comm]
  have htot2 : ewmWTot (((bn : ℝ) / bd) * ((bn : ℝ) / bd)) pre.length
      = (V : ℝ) / ((bd : ℝ) ^ pre.length * (bd : ℝ) ^ pre.length) := by
    rw [hb2, hVdef]
    have h := ewmWTot_cast (bn * bn) (bd * bd) hbd2 pre.length
    rw [h]
    push_cast
    rw [mul_pow]
  have hdevlist : (castList pre).map
        (fun x => (x - ewmMeanR ((bn : ℝ) / bd) (castList pre)) ^ 2)
      = (castList (pre.map (fun x => (x * W - SP) * (x * W - SP)))).map
          (fun y => y * (((W : ℝ))⁻¹ * ((W : ℝ))⁻¹)) := by
    rw [hmean]
    simp only [castList, List.map_map]
    apply List.map_congr_left
    intro a _
    simp only [Function.comp]
    push_cast
    field_simp
    ring
  have hvarB : ewmVarBiased ((bn : ℝ) / bd) (castList pre)
      = (Dev : ℝ) / ((W : ℝ) * (W : ℝ) * (W : ℝ)) := by
    unfold ewmVarBiased
    rw [hlen, hdevlist, ewmWSum_mul_right, ewmWSum_cast bn bd hbd, htot]
    rw [List.length_map, ← hDevdef]
    field_simp
    ring
  have hdebias : ewmDebias ((bn : ℝ) / bd) pre.length
      = ((W : ℝ) * (W : ℝ)) / ((W : ℝ) * (W : ℝ) - (V : ℝ)) := by
    unfold ewmDebias
    rw [htot, htot2]
    rw [div_pow]
    rw [show ((bd : ℝ) ^ pre.length) ^ 2 = (bd : ℝ) ^ pre.length * (bd : ℝ) ^ pre.length
      from by ring]
    rw [div_sub_div_same, div_div_div_cancel_right₀]
    · rw [show ((W : ℝ) ^ 2) = (W : ℝ) * (W : ℝ) from by ring]
    · exact mul_ne_zero hbdn hbdn
  refine ⟨hmean, ?_⟩
  unfold ewmVarR
  rw [hlen, hvarB, hdebias]
  field_simp
  ring

theorem inEnv_sound (bn bd : ℤ) (xs : List ℤ) (t : ℕ) (hbd : (bd : ℝ) ≠ 0)
    (hc : inEnvCheck bn bd xs t = true) :
    (((xs.getD t 0 : ℤ) : ℝ) - ewmMeanR ((bn : ℝ) / bd) (castList (xs.take (t + 1)))) ^ 2
      ≤ 25 * ewmVarR ((bn : ℝ) / bd) (castList (xs.take (t + 1))) := by
  unfold inEnvCheck at hc
  simp only [Bool.and_eq_true, decide_eq_true_eq] at hc
  obtain ⟨⟨hW, hWV⟩, hle⟩ := hc
  obtain ⟨hmean, hvar⟩ := ewm_eval bn bd (xs.take (t + 1)) _ _ _ _ hbd rfl rfl rfl rfl hW hWV
  rw [hmean, hvar]
  set W := wTotScaled bn bd (xs.take (t + 1)).length with hWdef
  set SP := wScaled bn bd (xs.take (t + 1)) with hSPdef
  set V := wTotScaled (bn * bn) (bd * bd) (xs.take (t + 1)).length with hVdef
  set Dev := wScaled bn bd ((xs.take (t + 1)).map (fun x => (x * W - SP) * (x * W - SP)))
    with hDevdef
  set x := xs.getD t 0 with hxdef
  have hWR : (0 : ℝ) < (W : ℝ) := by exact_mod_cast hW
  have hWVR : (0 : ℝ) < (W : ℝ) * (W : ℝ) - (V : ℝ) := by exact_mod_cast hWV
  have hfrac : ((x : ℤ) : ℝ) - (SP : ℝ) / (W : ℝ) = ((x * W - SP : ℤ) : ℝ) / (W : ℝ) := by
    push_cast
    field_simp
  rw [hfrac, div_pow]
  rw [show (25 : ℝ) * ((Dev : ℝ) / ((W : ℝ) * ((W : ℝ) * (W : ℝ) - (V : ℝ))))
      = (25 * (Dev : ℝ)) / ((W : ℝ) * ((W : ℝ) * (W : ℝ) - (V : ℝ))) from by ring]
  rw [div_le_div_iff₀ (by positivity) (by positivity)]
  rw [show (((x * W - SP : ℤ) : ℝ)) ^ 2 = ((x * W - SP : ℤ) : ℝ) * ((x * W - SP : ℤ) : ℝ)
    from by ring]
  rw [show ((W : ℝ)) ^ 2 = (W : ℝ) * (W : ℝ) from by ring]
  exact_mod_cast hle

theorem aboveEnv_sound (bn bd : ℤ) (xs : List ℤ) (t : ℕ) (hbd : (bd : ℝ) ≠ 0)
    (hc : aboveEnvCheck bn bd xs t = true) :
    ewmMeanR ((bn : ℝ) / bd) (castList (xs.take (t + 1)))
        + 5 * Real.sqrt (ewmVarR ((bn : ℝ) / bd) (castList (xs.take (t + 1))))
      < ((xs.getD t 0 : ℤ) : ℝ) := by
  unfold aboveEnvCheck at hc
  simp only [Bool.and_eq_true, decide_eq_true_eq] at hc
  obtain ⟨⟨⟨⟨hW, hWV⟩, hDev⟩, hSPle⟩, hlt⟩ := hc
  obtain ⟨hmean, hvar⟩ := ewm_eval bn bd (xs.take (t + 1)) _ _ _ _ hbd rfl rfl rfl rfl hW hWV
  rw [hmean, hvar]
  set W := wTotScaled bn bd (xs.take (t + 1)).length with hWdef
  set SP := wScaled bn bd (xs.take (t + 1)) with hSPdef
  set V := wTotScaled (bn * bn) (bd * bd) (xs.take (t + 1)).length with hVdef
  set Dev := wScaled bn bd ((xs.take (t + 1)).map (fun x => (x * W - SP) * (x * W - SP)))
    with hDevdef
  set x := xs.getD t 0 with hxdef
  have hWR : (0 : ℝ) < (W : ℝ) := by exact_mod_cast hW
  have hWVR : (0 : ℝ) < (W : ℝ) * (W : ℝ) - (V : ℝ) := by exact_mod_cast hWV
  have hDevR : (0 : ℝ) ≤ (Dev : ℝ) := by exact_mod_cast hDev
  have hvnn : (0 : ℝ) ≤ (Dev : ℝ) / ((W : ℝ) * ((W : ℝ) * (W : ℝ) - (V : ℝ))) := by
    positivity
  have hxm : (SP : ℝ) / (W : ℝ) ≤ ((x : ℤ) : ℝ) := by
    rw [div_le_iff₀ hWR]
    exact_mod_cast hSPle
  have hstrict : 25 * ((Dev : ℝ) / ((W : ℝ) * ((W : ℝ) * (W : ℝ) - (V : ℝ))))
      < (((x : ℤ) : ℝ) - (SP : ℝ) / (W : ℝ)) ^ 2 := by
    have hfrac : ((x : ℤ) : ℝ) - (SP : ℝ) / (W : ℝ) = ((x * W - SP : ℤ) : ℝ) / (W : ℝ) := by
      push_cast
      field_simp
    rw [hfrac, div_pow]
    rw [show (25 : ℝ) * ((Dev : ℝ) / ((W : ℝ) * ((W : ℝ) * (W : ℝ) - (V : ℝ))))
        = (25 * (Dev : ℝ)) / ((W : ℝ) * ((W : ℝ) * (W : ℝ) - (V : ℝ))) from by ring]
    rw [div_lt_div_iff₀ (by positivity) (by positivity)]
    rw [show (((x * W - SP : ℤ) : ℝ)) ^ 2 = ((x * W - SP : ℤ) : ℝ) * ((x * W - SP : ℤ) : ℝ)
      from by ring]
    rw [show ((W : ℝ)) ^ 2 = (W : ℝ) * (W : ℝ) from by ring]
    exact_mod_cast hlt
  have hsq : Real.sqrt (25 * ((Dev : ℝ) / ((W : ℝ) * ((W : ℝ) * (W : ℝ) - (V : ℝ)))))
      < Real.sqrt ((((x : ℤ) : ℝ) - (SP : ℝ) / (W : ℝ)) ^ 2) :=
    Real.sqrt_lt_sqrt (by positivity) hstrict
  rw [Real.sqrt_sq_eq_abs, sqrt_25_mul, abs_of_nonneg (by linarith)] at hsq
  linarith

theorem winsSrs_length (b : ℝ) (xs : List ℝ) : (winsSrs b xs).length = xs.length := by
  simp [winsSrs]

theorem winsSrs_getElem (b : ℝ) (xs : List ℝ) (t : ℕ) (ht : t < xs.length) :
    (winsSrs b xs)[t]? = some (if t = 0 then none
      else some (clipR (xs.getD t 0) (ewmMeanR b (xs.take (t + 1)))
        (ewmVarR b (xs.take (t + 1))))) := by
  unfold winsSrs
  rw [List.getElem?_map, List.getElem?_range ht]
  rfl

theorem castList_getD (xs : List ℤ) (t : ℕ) :
    (castList xs).getD t 0 = ((xs.getD t 0 : ℤ) : ℝ) := by
  simp only [castList, List.getD_eq_getElem?_getD, List.getElem?_map]
  cases h : xs[t]? <;> simp

theorem castList_take (xs : List ℤ) (k : ℕ) :
    (castList xs).take k = castList (xs.take k) := by
  simp [castList, List.map_take]

theorem castList_length (xs : List ℤ) : (castList xs).length = xs.length := by
  simp [castList]

theorem winsSrs_self_of_inEnv (bn bd : ℤ) (xs : List ℤ) (t : ℕ) (hbd : (bd : ℝ) ≠ 0)
    (ht : t < xs.length) (ht0 : t ≠ 0)
    (hc : inEnvCheck bn bd xs t = true) :
    (winsSrs ((bn : ℝ) / bd) (castList xs))[t]? = some (some ((xs.getD t 0 : ℤ) : ℝ)) := by
  have htc : t < (castList xs).length := by rw [castList_length]; exact ht
  rw [winsSrs_getElem _ _ _ htc, if_neg ht0, castList_getD, castList_take]
  have henv := inEnv_sound bn bd xs t hbd hc
  rw [clipR_eq_self _ _ _ henv]

theorem winsSrs_eq_of_noClip (bn bd : ℤ) (xs : List ℤ) (hbd : (bd : ℝ) ≠ 0)
    (hnc : noClipCheck bn bd xs = true) :
    winsSrs ((bn : ℝ) / bd) (castList xs)
      = (List.range xs.length).map (fun t =>
          if t = 0 then none else some ((xs.getD t 0 : ℤ) : ℝ)) := by
  apply List.ext_getElem?
  intro j
  by_cases hj : j < xs.length
  · rw [List.getElem?_map, List.getElem?_range hj]
    by_cases hj0 : j = 0
    · subst hj0
      have htc : 0 < (castList xs).length := by rw [castList_length]; exact hj
      rw [winsSrs_getElem _ _ _ htc, if_pos rfl]
      rfl
    · have hcheck : inEnvCheck bn bd xs j = true := by
        unfold noClipCheck at hnc
        rw [List.all_eq_true] at hnc
        have := hnc j (List.mem_range.mpr hj)
        simpa [hj0] using this
      rw [winsSrs_self_of_inEnv bn bd xs j hbd hj hj0 hcheck]
      simp [hj0]
  · have h1 : (winsSrs ((bn : ℝ) / bd) (castList xs))[j]? = none := by
      apply List.getElem?_eq_none
      rw [winsSrs_length, castList_length]
      omega
    have h2 : ((List.range xs.length).map (fun t =>
        if t = 0 then none else some ((xs.getD t 0 : ℤ) : ℝ)))[j]? = none := by
      apply List.getElem?_eq_none
      simp only [List.length_map, List.length_range]
      omega
    rw [h1, h2]

theorem emitted_range_map (g : ℕ → ℝ) (n : ℕ) :
    emitted ((List.range n).map (fun t => if t = 0 then none else some (g t)))
      = ((List.range n).drop 1).map g := by
  unfold emitted
  rw [List.filterMap_map]
  cases n with
  | zero => simp
  | succ m =>
    rw [List.range_succ_eq_map]
    simp only [List.drop_succ_cons, List.drop_zero, List.filterMap_cons]
    norm_num
    have hfun : ((fun t => if t = 0 then none else some (g t)) ∘ Nat.succ)
        = some ∘ (g ∘ Nat.succ) := by
      funext x
      simp [Nat.succ_ne_zero]
    rw [hfun, List.filterMap_eq_map]

theorem emitted_winsSrs_noClip (bn bd : ℤ) (xs : List ℤ) (hbd : (bd : ℝ) ≠ 0)
    (hnc : noClipCheck bn bd xs = true) :
    emitted (winsSrs ((bn : ℝ) / bd) (castList xs)) = castList (xs.drop 1) := by
  rw [winsSrs_eq_of_noClip bn bd xs hbd hnc, emitted_range_map]
  apply List.ext_getElem?
  intro j
  rw [List.getElem?_map, List.getElem?_drop]
  unfold castList
  rw [List.getElem?_map, List.getElem?_drop]
  by_cases hj : 1 + j < xs.length
  · rw [List.getElem?_range hj]
    have hx : xs[1 + j]? = some (xs.getD (1 + j) 0) := by
      rw [List.getD_eq_getElem?_getD]
      cases h : xs[1 + j]? with
      | none =>
        exfalso
        rw [List.getElem?_eq_none_iff] at h
        omega
      | some y => simp
    rw [hx]
    rfl
  · have h1 : (List.range xs.length)[1 + j]? = none := by
      rw [List.getElem?_eq_none_iff, List.length_range]
      omega
    have h2 : xs[1 + j]? = none := by
      rw [List.getElem?_eq_none_iff]
      omega
    rw [h1, h2]
    rfl

/-- C5: every winsorized `srs` value emitted by the assembler lies within
`[m - 5·s, m + 5·s]`, where `m` and `s` are the exponentially weighted
rolling mean and standard deviation of the cleaned price series at the
time of computation. -/
theorem C5_winsorize_within_envelope (b : ℝ) (xs : List ℝ) (t : ℕ) (v : ℝ)
    (h : (winsSrs b xs)[t]? = some (some v)) :
    ewmMeanR b (xs.take (t + 1)) - 5 * Real.sqrt (ewmVarR b (xs.take (t + 1))) ≤ v ∧
    v ≤ ewmMeanR b (xs.take (t + 1)) + 5 * Real.sqrt (ewmVarR b (xs.take (t + 1))) := by
  have ht : t < xs.length := by
    by_contra hc
    have hnone : (winsSrs b xs)[t]? = none := by
      rw [List.getElem?_eq_none_iff, winsSrs_length]
      omega
    rw [hnone] at h
    exact absurd h (by simp)
  rw [winsSrs_getElem b xs t ht] at h
  by_cases ht0 : t = 0
  · rw [if_pos ht0] at h
    exact absurd h (by simp)
  · rw [if_neg ht0] at h
    have hv : v = clipR (xs.getD t 0) (ewmMeanR b (xs.take (t + 1)))
        (ewmVarR b (xs.take (t + 1))) := by
      have h1 : some (clipR (xs.getD t 0) (ewmMeanR b (xs.take (t + 1)))
          (ewmVarR b (xs.take (t + 1)))) = some v := by
        injection h
      injection h1 with h2
      exact h2.symm
    rw [hv]
    exact ⟨lo_le_clipR _ _ _, clipR_le_hi _ _ _⟩

/-- Witness for C5 at the series `[1, 2]` with decay `1/2`: the emitted
value at position 1 is `2`, inside its envelope. -/
theorem C5_witness :
    (winsSrs ((1 : ℝ) / 2) (castList [1, 2]))[1]? = some (some 2) ∧
    (ewmMeanR ((1 : ℝ) / 2) ((castList [1, 2]).take 2)
        - 5 * Real.sqrt (ewmVarR ((1 : ℝ) / 2) ((castList [1, 2]).take 2)) ≤ 2 ∧
      2 ≤ ewmMeanR ((1 : ℝ) / 2) ((castList [1, 2]).take 2)
        + 5 * Real.sqrt (ewmVarR ((1 : ℝ) / 2) ((castList [1, 2]).take 2))) := by
  have hh : (winsSrs ((1 : ℝ) / 2) (castList [1, 2]))[1]? = some (some 2) := by
    have h := winsSrs_self_of_inEnv 1 2 [1, 2] 1 (by norm_num) (by norm_num)
      (by norm_num) (by decide)
    push_cast at h
    convert h using 4
  exact ⟨hh, C5_winsorize_within_envelope ((1 : ℝ) / 2) (castList [1, 2]) 1 2 hh⟩

/-- C8 amended: clipping is idempotent against a fixed envelope: re-clipping
any emitted `srs` value against the envelope of the original cleaned series
(the one it was produced from) leaves it unchanged.  (The assembler itself
recomputes the envelope from the already-clipped, first-row-dropped series,
and that recomputed clip can move values again; see the counterexample.) -/
theorem C8_amended_fixed_envelope_idempotent (b : ℝ) (xs : List ℝ) (t : ℕ) (v : ℝ)
    (h : (winsSrs b xs)[t]? = some (some v)) :
    clipR v (ewmMeanR b (xs.take (t + 1))) (ewmVarR b (xs.take (t + 1))) = v := by
  have ht : t < xs.length := by
    by_contra hc
    have hnone : (winsSrs b xs)[t]? = none := by
      rw [List.getElem?_eq_none_iff, winsSrs_length]
      omega
    rw [hnone] at h
    exact absurd h (by simp)
  rw [winsSrs_getElem b xs t ht] at h
  by_cases ht0 : t = 0
  · rw [if_pos ht0] at h
    exact absurd h (by simp)
  · rw [if_neg ht0] at h
    have hv : v = clipR (xs.getD t 0) (ewmMeanR b (xs.take (t + 1)))
        (ewmVarR b (xs.take (t + 1))) := by
      have h1 : some (clipR (xs.getD t 0) (ewmMeanR b (xs.take (t + 1)))
          (ewmVarR b (xs.take (t + 1)))) = some v := by
        injection h
      injection h1 with h2
      exact h2.symm
    rw [hv]
    exact clipR_idem _ _ _

/-- Witness for the amended C8 at the series `[0, 3]` with decay `1/3`. -/
theorem C8_amended_witness :
    (winsSrs ((1 : ℝ) / 3) (castList [0, 3]))[1]? = some (some 3) ∧
    clipR 3 (ewmMeanR ((1 : ℝ) / 3) ((castList [0, 3]).take 2))
      (ewmVarR ((1 : ℝ) / 3) ((castList [0, 3]).take 2)) = 3 := by
  have hh : (winsSrs ((1 : ℝ) / 3) (castList [0, 3]))[1]? = some (some 3) := by
    have h := winsSrs_self_of_inEnv 1 3 [0, 3] 1 (by norm_num) (by norm_num)
      (by norm_num) (by decide)
    push_cast at h
    convert h using 4
  exact ⟨hh, C8_amended_fixed_envelope_idempotent ((1 : ℝ) / 3) (castList [0, 3]) 1 3 hh⟩

/-- C8 counterexample: winsorization is not idempotent as the claim states
it.  For the cleaned series `ceSeries = [100, 0, …, 0, 1]` (decay
`363/364`), the first pass clips nothing, so the emitted `srs` equals the
series with its first row dropped; re-running the assembler winsorization
on that output replaces the final value `1` by the strictly smaller
`mean + 5·std` of the second-pass envelope. -/
theorem C8_counterexample :
    ∃ w : ℝ,
      (winsSrs ((ceNum : ℝ) / (ceDen : ℝ))
          (emitted (winsSrs ((ceNum : ℝ) / (ceDen : ℝ)) (castList ceSeries))))[30]?
        = some (some w) ∧
      (emitted (winsSrs ((ceNum : ℝ) / (ceDen : ℝ)) (castList ceSeries)))[30]?
        = some 1 ∧
      w ≠ 1 := by
  have hbd : ((ceDen : ℤ) : ℝ) ≠ 0 := by norm_num [ceDen]
  have hnc : noClipCheck ceNum ceDen ceSeries = true := by decide
  have hem := emitted_winsSrs_noClip ceNum ceDen ceSeries hbd hnc
  have hys31 : (ceSeries.drop 1).length = 31 := by decide
  have hys30 : (ceSeries.drop 1)[30]? = some 1 := by decide
  have hysD : (ceSeries.drop 1).getD 30 0 = 1 := by decide
  have habove : aboveEnvCheck ceNum ceDen (ceSeries.drop 1) 30 = true := by decide
  have hcastlen : (castList (ceSeries.drop 1)).length = 31 := by
    rw [castList_length, hys31]
  have hget : (winsSrs ((ceNum : ℝ) / (ceDen : ℝ)) (castList (ceSeries.drop 1)))[30]?
      = some (some (clipR ((castList (ceSeries.drop 1)).getD 30 0)
          (ewmMeanR ((ceNum : ℝ) / (ceDen : ℝ)) ((castList (ceSeries.drop 1)).take 31))
          (ewmVarR ((ceNum : ℝ) / (ceDen : ℝ)) ((castList (ceSeries.drop 1)).take 31)))) := by
    rw [winsSrs_getElem _ _ 30 (by rw [hcastlen]; norm_num)]
    norm_num
  rw [castList_getD, hysD, castList_take] at hget
  have hstrict := aboveEnv_sound ceNum ceDen (ceSeries.drop 1) 30 hbd habove
  rw [hysD] at hstrict
  set m := ewmMeanR ((ceNum : ℝ) / (ceDen : ℝ)) (castList ((ceSeries.drop 1).take 31))
    with hm
  set vv := ewmVarR ((ceNum : ℝ) / (ceDen : ℝ)) (castList ((ceSeries.drop 1).take 31))
    with hvv
  have hone : (((1 : ℤ) : ℝ)) = (1 : ℝ) := by norm_num
  rw [hone] at hget hstrict
  have hhi : clipR 1 m vv = m + 5 * Real.sqrt vv :=
    clipR_eq_hi 1 m vv (le_of_lt hstrict)
  refine ⟨m + 5 * Real.sqrt vv, ?_, ?_, ?_⟩
  · rw [hem, hget, hhi]
  · rw [hem]
    unfold castList
    rw [List.getElem?_map, hys30]
    norm_num
  · exact ne_of_lt hstrict

/-- C1: the mid filter does NOT drop the zero-price tick.  On the spec
scenario `[1.0, 1.0, 1.0, 0.0, 1.0]` the filter keeps every row, including
the `0.0` tick, because the coded condition is a disjunction
(`~isna | ~isnull | (mid > 1e-8)`) and any non-NaN row already passes
`~isna`; the inline comment `# price is zero` and the spec intend the
near-zero rows to be dropped. -/
theorem C1_filter_keeps_zero_tick :
    midFilter [some 1, some 1, some 1, some 0, some 1]
      = [some 1, some 1, some 1, some 0, some 1] ∧
    some (0 : ℚ) ∈ midFilter [some 1, some 1, some 1, some 0, some 1] ∧
    (∀ mids : List (Option ℚ), midFilter mids = mids.filter (fun m => m.isSome)) := by
  refine ⟨by decide, by decide, ?_⟩
  intro mids
  unfold midFilter
  apply List.filter_congr
  intro m _
  cases m with
  | none => rfl
  | some v => rfl

/-- C2 counterexample: the coded day horizon is `SEC_PER_DAY = 23400`
seconds (a trading day), not `86400`; the claimed horizon set (with 86400)
is not the coded one, and no 86400-based horizon occurs. -/
theorem C2_counterexample_day_horizon :
    normOffsets[3]? = some 23400 ∧ (86400 : ℕ) ∉ normOffsets ∧
    normOffsets ≠ specOffsets := by
  refine ⟨by decide, by decide, by decide⟩

/-- C2 amended: the eight normalized-return horizons are
`{1, 60, 3600, 23400, 21·23400, 63·23400, 126·23400, 252·23400}` seconds,
and each horizon column is `raw_return(h) / second_vol / sqrt(h)`
computed only from the raw-return primitive at that horizon and the
volatility column (so no horizon depends on another horizon's output). -/
theorem C2_amended_normalized_returns :
    normOffsets = [1, 60, 3600, 23400, 491400, 1474200, 2948400, 5896800] ∧
    (∀ (rawRet vol : List (Option ℝ)) (h : ℕ) (i : ℕ) (r v : ℝ),
      rawRet[i]? = some (some r) → vol[i]? = some (some v) →
      (normReturnCol rawRet vol h)[i]? = some (some (r / v / Real.sqrt (h : ℝ)))) ∧
    (∀ (fns : ExternalFns) (accs : CalAccs) (b : ℝ) (rows : List (ℤ × Option ℚ)),
      ((assemblerCols fns accs b rows).drop 5).take 8
        = normOffsets.map (fun h => normReturnCol
            (fns.returnsFn
              (winsSrs b ((keptRows rows).map (fun r => ((r.2.getD 0 : ℚ) : ℝ)))) h)
            (fns.volFn (fns.returnsFn
              (winsSrs b ((keptRows rows).map (fun r => ((r.2.getD 0 : ℚ) : ℝ)))) 1))
            h)) := by
  refine ⟨by decide, ?_, ?_⟩
  · intro rawRet vol h i r v hr hv
    unfold normReturnCol
    rw [List.getElem?_zipWith, hr, hv]
    rfl
  · intro fns accs b rows
    rfl

/-- Witness for the amended C2 at a one-row frame. -/
theorem C2_amended_witness :
    (normReturnCol [some 2] [some 8] 4)[0]? = some (some (2 / 8 / Real.sqrt (4 : ℝ))) := by
  have h := C2_amended_normalized_returns.2.1 [some 2] [some 8] 4 0 2 8 rfl rfl
  simpa using h

/-- C9: calendar extraction on an empty frame takes the explicit empty
branch and returns an empty sequence for each of the nine calendar
fields, whatever the accessor functions are, rather than failing. -/
theorem C9_calendar_empty_input (accs : CalAccs) :
    calendarCols accs [] = ⟨[], [], [], [], [], [], [], [], []⟩ := rfl

theorem ffillCP_complete (rows : List CPRow)
    (h : ∀ r ∈ rows, r.t.isSome ∧ r.cp_location.isSome ∧ r.cp_score.isSome ∧
      r.cp_location_norm.isSome) :
    ∀ carry, ffillCP carry rows = rows := by
  induction rows with
  | nil => intro carry; rfl
  | cons r rs ih =>
    intro carry
    obtain ⟨ht, hloc, hsc, hnorm⟩ := h r (List.mem_cons_self r rs)
    have hrest : ∀ x ∈ rs, x.t.isSome ∧ x.cp_location.isSome ∧ x.cp_score.isSome ∧
        x.cp_location_norm.isSome := fun x hx => h x (List.mem_cons_of_mem r hx)
    have hfill : (⟨r.date, r.t.orElse (fun _ => carry.t),
        r.cp_location.orElse (fun _ => carry.cp_location),
        r.cp_score.orElse (fun _ => carry.cp_score),
        r.cp_location_norm.orElse (fun _ => carry.cp_location_norm)⟩ : CPRow) = r := by
      obtain ⟨tv, htv⟩ := Option.isSome_iff_exists.mp ht
      obtain ⟨lv, hlv⟩ := Option.isSome_iff_exists.mp hloc
      obtain ⟨sv, hsv⟩ := Option.isSome_iff_exists.mp hsc
      obtain ⟨nv, hnv⟩ := Option.isSome_iff_exists.mp hnorm
      cases r
      simp only at htv hlv hsv hnv
      subst htv hlv hsv hnv
      rfl
    show (⟨r.date, r.t.orElse (fun _ => carry.t),
        r.cp_location.orElse (fun _ => carry.cp_location),
        r.cp_score.orElse (fun _ => carry.cp_score),
        r.cp_location_norm.orElse (fun _ => carry.cp_location_norm)⟩ : CPRow)
      :: ffillCP _ rs = r :: rs

    rw [hfill, ih hrest]

/-- C3: the changepoint reader forward-fills missing rows from the most
recent earlier valid row, drops leading rows with nothing to fill from,
and recomputes `cp_location_norm = (t - cp_location) / L` from the filled
values: (a) every output row carries the recomputed norm; (b) a gap-free
input round-trips, keeping its `(cp_location, cp_score)` and getting the
formula-derived norm; (c) a leading all-missing row is simply dropped;
(d) the scenario with valid rows at t = 1, 2, 3 (`cp_location` 1, 1, 2,
stale stored norms) and a missing detection at t = 4 fills t = 4 with
row 3's location and score and recomputes its norm as `(4 - 2) / 2 = 1`,
not the copied stale value. -/
theorem C3_changepoint_reader :
    (∀ (L : ℤ) (rows : List CPRow) (r : CPRow), r ∈ readerCP L rows →
      ∃ tv cv, r.t = some tv ∧ r.cp_location = some cv ∧
        r.cp_location_norm = some ((tv - cv) / (L : ℚ))) ∧
    (∀ (L : ℤ) (rows : List CPRow),
      (∀ r ∈ rows, r.t.isSome ∧ r.cp_location.isSome ∧ r.cp_score.isSome ∧
        r.cp_location_norm.isSome) →
      readerCP L rows = rows.map (fun r =>
        { r with cp_location_norm :=
            r.t.bind (fun tv => r.cp_location.map (fun cv => (tv - cv) / (L : ℚ))) })) ∧
    (∀ (L : ℤ) (rows : List CPRow), readerCP L (cpBlank :: rows) = readerCP L rows) ∧
    (readerCP 2
        [⟨1, some 1, some 1, some 9, some 0⟩,
         ⟨2, some 2, some 1, some 8, some 7⟩,
         ⟨3, some 3, some 2, some 7, some 5⟩,
         ⟨4, some 4, none, none, none⟩]
      = [⟨1, some 1, some 1, some 9, some 0⟩,
         ⟨2, some 2, some 1, some 8, some (1/2 : ℚ)⟩,
         ⟨3, some 3, some 2, some 7, some (1/2 : ℚ)⟩,
         ⟨4, some 4, some 2, some 7, some 1⟩]) := by
  refine ⟨?_, ?_, ?_, ?_⟩
  · intro L rows r hr
    unfold readerCP assignNorm at hr
    rw [List.mem_map] at hr
    obtain ⟨r0, hr0, hr0eq⟩ := hr
    unfold dropnaCP at hr0
    rw [List.mem_filter] at hr0
    obtain ⟨_, hall⟩ := hr0
    simp only [Bool.and_eq_true] at hall
    obtain ⟨⟨⟨ht, hloc⟩, _⟩, _⟩ := hall
    obtain ⟨tv, htv⟩ := Option.isSome_iff_exists.mp ht
    obtain ⟨cv, hcv⟩ := Option.isSome_iff_exists.mp hloc
    refine ⟨tv, cv, ?_, ?_, ?_⟩ <;> rw [← hr0eq] <;> simp [htv, hcv]
  · intro L rows hall
    unfold readerCP
    rw [ffillCP_complete rows hall cpBlank]
    have hdrop : dropnaCP rows = rows := by
      unfold dropnaCP
      apply List.filter_eq_self.mpr
      intro r hr
      obtain ⟨h1, h2, h3, h4⟩ := hall r hr
      simp [h1, h2, h3, h4]
    rw [hdrop]
    rfl
  · intro L rows
    unfold readerCP
    have h1 : ffillCP cpBlank (cpBlank :: rows) = cpBlank :: ffillCP cpBlank rows := rfl
    rw [h1]
    have h2 : dropnaCP (cpBlank :: ffillCP cpBlank rows)
        = dropnaCP (ffillCP cpBlank rows) := rfl
    rw [h2]
  · show assignNorm 2 (dropnaCP (ffillCP cpBlank _)) = _
    norm_num [ffillCP, dropnaCP, assignNorm, cpBlank, Option.orElse]

/-- Witness for C3: the gap-free round-trip applied to a concrete one-row
record. -/
theorem C3_witness :
    readerCP 2 [⟨1, some 3, some 1, some 7, some 5⟩]
      = [⟨1, some 3, some 1, some 7, some 1⟩] := by
  have h := C3_changepoint_reader.2.1 2 [⟨1, some 3, some 1, some 7, some 5⟩]
    (by decide)
  rw [h]
  norm_num

theorem mem_mergeInner (feats : List FeatRow) (cpd : List CPFeat) (r : MergedRow) :
    r ∈ mergeInner feats cpd ↔
      ∃ f ∈ feats, ∃ c ∈ cpd, c.date = f.date ∧ c.ticker = f.ticker ∧ r = mkMerged f c := by
  induction feats with
  | nil => simp [mergeInner]
  | cons f fs ih =>
    simp only [mergeInner, List.mem_append, List.mem_map, List.mem_filter,
      Bool.and_eq_true, beq_iff_eq, ih, List.mem_cons]
    constructor
    · rintro (⟨c, ⟨hc, hcd, hct⟩, hr⟩ | ⟨f', hf', c, hc, hcd, hct, hr⟩)
      · exact ⟨f, Or.inl rfl, c, hc, hcd, hct, hr.symm⟩
      · exact ⟨f', Or.inr hf', c, hc, hcd, hct, hr⟩
    · rintro ⟨f', hf' | hf', c, hc, hcd, hct, hr⟩
      · subst hf'
        exact Or.inl ⟨c, ⟨hc, hcd, hct⟩, hr.symm⟩
      · exact Or.inr ⟨f', hf', c, hc, hcd, hct, hr⟩

/-- C4: the changepoint merge is an inner join on `(date, ticker)`:
(a) after the merge the frame index equals the `date` column;
(b) every merged row is built from a feature row and a matching
changepoint record, transporting the payload and placing
`cp_location_norm` and `cp_score` into the renamed `cp_rl_<L>` /
`cp_score_<L>` columns; (c) a key appears in the output exactly when both
sides carry it — in particular a feature row with no matching changepoint
record is dropped; (d) when the changepoint data covers the tickers in
`T` (with records at the feature dates), the merged tickers are exactly
the feature tickers restricted to `T` — the 100-versus-90-tickers
scenario. -/
theorem C4_changepoint_merge :
    (∀ (feats : List FeatRow) (cpd : List CPFeat) (r : MergedRow),
      r ∈ mergeInner feats cpd → r.idx = r.date) ∧
    (∀ (feats : List FeatRow) (cpd : List CPFeat) (r : MergedRow),
      r ∈ mergeInner feats cpd →
      ∃ f ∈ feats, ∃ c ∈ cpd, f.date = r.date ∧ f.ticker = r.ticker ∧
        c.date = r.date ∧ c.ticker = r.ticker ∧ r.value = f.value ∧
        r.cp_rl = c.cp_location_norm ∧ r.cp_score = c.cp_score) ∧
    (∀ (feats : List FeatRow) (cpd : List CPFeat) (d : ℤ) (k : String),
      (∃ r ∈ mergeInner feats cpd, r.date = d ∧ r.ticker = k) ↔
      ((∃ f ∈ feats, f.date = d ∧ f.ticker = k) ∧
        (∃ c ∈ cpd, c.date = d ∧ c.ticker = k))) ∧
    (∀ (feats : List FeatRow) (cpd : List CPFeat) (T : List String),
      (∀ f ∈ feats, f.ticker ∈ T → ∃ c ∈ cpd, c.date = f.date ∧ c.ticker = f.ticker) →
      (∀ c ∈ cpd, c.ticker ∈ T) →
      ∀ k, (∃ r ∈ mergeInner feats cpd, r.ticker = k) ↔
        ((∃ f ∈ feats, f.ticker = k) ∧ k ∈ T)) := by
  refine ⟨?_, ?_, ?_, ?_⟩
  · intro feats cpd r hr
    obtain ⟨f, _, c, _, _, _, hr⟩ := (mem_mergeInner feats cpd r).mp hr
    subst hr
    rfl
  · intro feats cpd r hr
    obtain ⟨f, hf, c, hc, hcd, hct, hr⟩ := (mem_mergeInner feats cpd r).mp hr
    subst hr
    exact ⟨f, hf, c, hc, rfl, rfl, hcd, hct, rfl, rfl, rfl⟩
  · intro feats cpd d k
    constructor
    · rintro ⟨r, hr, hrd, hrk⟩
      obtain ⟨f, hf, c, hc, hcd, hct, hr⟩ := (mem_mergeInner feats cpd r).mp hr
      subst hr
      exact ⟨⟨f, hf, hrd, hrk⟩, ⟨c, hc, by rw [hcd]; exact hrd, by rw [hct]; exact hrk⟩⟩
    · rintro ⟨⟨f, hf, hfd, hfk⟩, ⟨c, hc, hcd, hck⟩⟩
      refine ⟨mkMerged f c, ?_, ?_, ?_⟩
      · exact (mem_mergeInner feats cpd _).mpr
          ⟨f, hf, c, hc, by rw [hcd, hfd], by rw [hck, hfk], rfl⟩
      · exact hfd
      · exact hfk
  · intro feats cpd T hcov hT k
    constructor
    · rintro ⟨r, hr, hrk⟩
      obtain ⟨f, hf, c, hc, hcd, hct, hreq⟩ := (mem_mergeInner feats cpd r).mp hr
      subst hreq
      refine ⟨⟨f, hf, hrk⟩, ?_⟩
      have : c.ticker = k := by rw [hct]; exact hrk
      rw [← this]
      exact hT c hc
    · rintro ⟨⟨f, hf, hfk⟩, hkT⟩
      obtain ⟨c, hc, hcd, hct⟩ := hcov f hf (by rw [hfk]; exact hkT)
      exact ⟨mkMerged f c, (mem_mergeInner feats cpd _).mpr ⟨f, hf, c, hc, hcd, hct, rfl⟩, hfk⟩

/-- Witness for C4 on a two-ticker feature table whose changepoint data
covers only ticker A: ticker A survives the merge and ticker B does not. -/
theorem C4_witness :
    ((∃ r ∈ mergeInner [⟨0, "A", 5⟩, ⟨0, "B", 6⟩] [⟨0, "A", some 1, some 2⟩],
        r.ticker = "A") ↔
      ((∃ f ∈ ([⟨0, "A", 5⟩, ⟨0, "B", 6⟩] : List FeatRow), f.ticker = "A") ∧
        "A" ∈ ["A"])) ∧
    ((∃ r ∈ mergeInner [⟨0, "A", 5⟩, ⟨0, "B", 6⟩] [⟨0, "A", some 1, some 2⟩],
        r.ticker = "B") ↔
      ((∃ f ∈ ([⟨0, "A", 5⟩, ⟨0, "B", 6⟩] : List FeatRow), f.ticker = "B") ∧
        "B" ∈ ["A"])) := by
  constructor
  · exact C4_changepoint_merge.2.2.2 [⟨0, "A", 5⟩, ⟨0, "B", 6⟩]
      [⟨0, "A", some 1, some 2⟩] ["A"] (by decide) (by decide) "A"
  · exact C4_changepoint_merge.2.2.2 [⟨0, "A", 5⟩, ⟨0, "B", 6⟩]
      [⟨0, "A", some 1, some 2⟩] ["A"] (by decide) (by decide) "B"

/-- C6 counterexample: for arbitrary inputs the merged `(date, ticker)`
pairs need not be unique — a duplicated feature row matching one
changepoint record yields two identically keyed merged rows. -/
theorem C6_counterexample_duplicate_keys :
    ¬ List.Pairwise (fun a b : MergedRow => (a.date, a.ticker) ≠ (b.date, b.ticker))
      (mergeInner [⟨0, "A", 0⟩, ⟨0, "A", 0⟩] [⟨0, "A", some 1, some 2⟩]) := by
  intro h
  have h2 : mergeInner [⟨0, "A", 0⟩, ⟨0, "A", 0⟩] [⟨0, "A", some 1, some 2⟩]
      = [⟨0, "A", 0, some 1, some 2, 0⟩, ⟨0, "A", 0, some 1, some 2, 0⟩] := by decide
  rw [h2] at h
  rcases List.pairwise_cons.mp h with ⟨hne, _⟩
  exact hne _ (List.mem_singleton.mpr rfl) rfl

theorem pairwise_key_filter_le_one {α κ : Type} (key : α → κ) (l : List α) (K : κ)
    (hp : List.Pairwise (fun a b => key a ≠ key b) l) (hall : ∀ x ∈ l, key x = K) :
    l.length ≤ 1 := by
  match l with
  | [] => simp
  | [x] => simp
  | x :: y :: rest =>
    exfalso
    rcases List.pairwise_cons.mp hp with ⟨hne, _⟩
    have hx := hall x (List.mem_cons_self _ _)
    have hy := hall y (List.mem_cons_of_mem _ (List.mem_cons_self _ _))
    exact hne y (List.mem_cons_self _ _) (by rw [hx, hy])

/-- C6 amended: when the feature table's `(date, ticker)` keys are unique
and the prepared changepoint table's keys are unique (as produced by one
record per asset per timestamp), every merged `(date, ticker)` pair is
unique. -/
theorem C6_amended_unique_keys (feats : List FeatRow) (cpd : List CPFeat)
    (hf : List.Pairwise (fun a b : FeatRow => (a.date, a.ticker) ≠ (b.date, b.ticker)) feats)
    (hc : List.Pairwise (fun a b : CPFeat => (a.date, a.ticker) ≠ (b.date, b.ticker)) cpd) :
    List.Pairwise (fun a b : MergedRow => (a.date, a.ticker) ≠ (b.date, b.ticker))
      (mergeInner feats cpd) := by
  induction feats with
  | nil => simp [mergeInner]
  | cons f fs ih =>
    rcases List.pairwise_cons.mp hf with ⟨hffs, hfs⟩
    show List.Pairwise _
      ((cpd.filter (fun c => c.date == f.date && c.ticker == f.ticker)).map (mkMerged f)
        ++ mergeInner fs cpd)
    apply List.pairwise_append.mpr
    refine ⟨?_, ih hfs, ?_⟩
    · have hfil : List.Pairwise (fun a b : CPFeat => (a.date, a.ticker) ≠ (b.date, b.ticker))
          (cpd.filter (fun c => c.date == f.date && c.ticker == f.ticker)) :=
        hc.filter _
      have hlen : (cpd.filter (fun c => c.date == f.date && c.ticker == f.ticker)).length ≤ 1 := by
        apply pairwise_key_filter_le_one (fun c : CPFeat => (c.date, c.ticker)) _
          (f.date, f.ticker) hfil
        intro x hx
        rcases List.mem_filter.mp hx with ⟨_, hcond⟩
        simp only [Bool.and_eq_true, beq_iff_eq] at hcond
        rw [hcond.1, hcond.2]
      match hm : cpd.filter (fun c => c.date == f.date && c.ticker == f.ticker) with
      | [] => rw [hm]; simp
      | [c] => rw [hm]; simp
      | c₁ :: c₂ :: rest =>
        rw [hm] at hlen
        simp at hlen
    · intro x hx y hy
      rcases List.mem_map.mp hx with ⟨c, _, hxeq⟩
      obtain ⟨f', hf', c', _, _, _, hyeq⟩ := (mem_mergeInner fs cpd y).mp hy
      subst hxeq hyeq
      exact hffs f' hf'

/-- Witness for the amended C6 on singleton unique-keyed inputs. -/
theorem C6_amended_witness :
    List.Pairwise (fun a b : MergedRow => (a.date, a.ticker) ≠ (b.date, b.ticker))
      (mergeInner [⟨0, "A", 0⟩] [⟨0, "A", some 1, some 2⟩]) :=
  C6_amended_unique_keys [⟨0, "A", 0⟩] [⟨0, "A", some 1, some 2⟩]
    (List.pairwise_singleton _ _) (List.pairwise_singleton _ _)

theorem survivors_all_isSome (fns : ExternalFns) (accs : CalAccs) (b : ℝ)
    (rows : List (ℤ × Option ℚ)) (i : ℕ) (col : List (Option ℝ))
    (hi : i ∈ assemblerSurvivors fns accs b rows)
    (hcol : col ∈ assemblerCols fns accs b rows) :
    (col.getD i none).isSome = true := by
  unfold assemblerSurvivors at hi
  rw [List.mem_filter] at hi
  rw [List.all_eq_true] at hi
  exact hi.2 col hcol

/-- C7: the final `dropna()` keeps exactly the rows with every column
present: (a) a surviving row has no missing value in any assembled column
(price, srs, returns, volatility, target, normalized returns, trend
signals, calendar fields); (b) a row with a missing value in any column is
dropped. -/
theorem C7_output_no_missing :
    (∀ (fns : ExternalFns) (accs : CalAccs) (b : ℝ) (rows : List (ℤ × Option ℚ))
      (i : ℕ) (col : List (Option ℝ)),
      i ∈ assemblerSurvivors fns accs b rows →
      col ∈ assemblerCols fns accs b rows →
      (col.getD i none).isSome = true) ∧
    (∀ (fns : ExternalFns) (accs : CalAccs) (b : ℝ) (rows : List (ℤ × Option ℚ))
      (i : ℕ) (col : List (Option ℝ)),
      col ∈ assemblerCols fns accs b rows →
      col.getD i none = none →
      i ∉ assemblerSurvivors fns accs b rows) := by
  constructor
  · intro fns accs b rows i col hi hcol
    exact survivors_all_isSome fns accs b rows i col hi hcol
  · intro fns accs b rows i col hcol hnone hi
    have := survivors_all_isSome fns accs b rows i col hi hcol
    rw [hnone] at this
    exact absurd this (by simp)

theorem winsSrs_getD_zero (b : ℝ) (xs : List ℝ) (h : 0 < xs.length) :
    (winsSrs b xs).getD 0 none = none := by
  rw [List.getD_eq_getElem?_getD, winsSrs_getElem b xs 0 h]
  simp

theorem shiftm1_getD_last (xs : List (Option ℝ)) (h : xs ≠ []) :
    (shiftm1 xs).getD (xs.length - 1) none = none := by
  match xs, h with
  | y :: ys, _ =>
    show ((ys ++ [none]).getD (ys.length + 1 - 1) none) = none
    rw [Nat.add_sub_cancel, List.getD_eq_getElem?_getD, List.getElem?_append]
    simp

/-- C10: for every asset frame, neither the first surviving row (its `srs`
is missing: the debiased exponentially weighted std of a single
observation is undefined) nor the last surviving row (its `target_returns`
comes from `shift(-1)`, so it is missing) survives the final `dropna()`,
whenever the external primitives are column transforms (length
preserving). -/
theorem C10_first_and_last_dropped (fns : ExternalFns) (accs : CalAccs) (b : ℝ)
    (rows : List (ℤ × Option ℚ))
    (hret : ∀ xs k, (fns.returnsFn xs k).length = xs.length)
    (hvol : ∀ xs, (fns.volFn xs).length = xs.length)
    (hvsr : ∀ xs ys, (fns.vsrFn xs ys).length = xs.length) :
    0 ∉ assemblerSurvivors fns accs b rows ∧
    ((keptRows rows).length - 1) ∉ assemblerSurvivors fns accs b rows := by
  have hsrs : (assemblerCols fns accs b rows)[1]?
      = some (winsSrs b ((keptRows rows).map (fun r => ((r.2.getD 0 : ℚ) : ℝ)))) := rfl
  have htarget : (assemblerCols fns accs b rows)[4]?
      = some (shiftm1 (fns.vsrFn
          (fns.returnsFn (winsSrs b ((keptRows rows).map (fun r => ((r.2.getD 0 : ℚ) : ℝ)))) 1)
          (fns.volFn (fns.returnsFn
            (winsSrs b ((keptRows rows).map (fun r => ((r.2.getD 0 : ℚ) : ℝ)))) 1)))) := rfl
  have hsrsMem := List.getElem?_mem hsrs
  have htargetMem := List.getElem?_mem htarget
  constructor
  · intro hmem
    have hkept : 0 < (keptRows rows).length := by
      unfold assemblerSurvivors at hmem
      rw [List.mem_filter, List.mem_range] at hmem
      exact hmem.1
    have hlen : 0 < ((keptRows rows).map (fun r => ((r.2.getD 0 : ℚ) : ℝ))).length := by
      rw [List.length_map]
      exact hkept
    have hval := survivors_all_isSome fns accs b rows 0 _ hmem hsrsMem
    rw [winsSrs_getD_zero b _ hlen] at hval
    exact absurd hval (by simp)
  · intro hmem
    have hkept : (keptRows rows).length - 1 < (keptRows rows).length := by
      unfold assemblerSurvivors at hmem
      rw [List.mem_filter, List.mem_range] at hmem
      exact hmem.1
    have hval := survivors_all_isSome fns accs b rows _ _ hmem htargetMem
    set srs := winsSrs b ((keptRows rows).map (fun r => ((r.2.getD 0 : ℚ) : ℝ))) with hsrsdef
    have hlensrs : srs.length = (keptRows rows).length := by
      rw [hsrsdef, winsSrs_length, List.length_map]
    have hlenv : (fns.vsrFn (fns.returnsFn srs 1) (fns.volFn (fns.returnsFn srs 1))).length
        = (keptRows rows).length := by
      rw [hvsr, hret, hlensrs]
    have hne : fns.vsrFn (fns.returnsFn srs 1) (fns.volFn (fns.returnsFn srs 1)) ≠ [] := by
      intro hnil
      rw [hnil] at hlenv
      simp at hlenv
      omega
    have hlast := shiftm1_getD_last _ hne
    rw [hlenv] at hlast
    rw [hlast] at hval
    exact absurd hval (by simp)

/-- Witness for C10 on a concrete two-row frame with identity-shaped
external primitives. -/
theorem C10_witness :
    0 ∉ assemblerSurvivors
        ⟨fun xs _ => xs, fun xs => xs, fun xs _ => xs, fun xs _ _ => xs⟩
        ⟨fun _ => 0, fun _ => 0, fun _ => 0, fun _ => 0,
         fun _ => 0, fun _ => 0, fun _ => 0, fun _ => 0⟩ 1
        [(0, some 1), (1, some 2)] ∧
    ((keptRows [(0, some 1), (1, some 2)]).length - 1) ∉ assemblerSurvivors
        ⟨fun xs _ => xs, fun xs => xs, fun xs _ => xs, fun xs _ _ => xs⟩
        ⟨fun _ => 0, fun _ => 0, fun _ => 0, fun _ => 0,
         fun _ => 0, fun _ => 0, fun _ => 0, fun _ => 0⟩ 1
        [(0, some 1), (1, some 2)] :=
  C10_first_and_last_dropped _ _ 1 _ (fun _ _ => rfl) (fun _ => rfl) (fun _ _ => rfl)

/-- Witness for C7: on a three-row frame with constant external
primitives, row 1 survives and its mid column value is present. -/
theorem C7_witness :
    1 ∈ assemblerSurvivors
        ⟨fun xs _ => xs.map (fun _ => some 1), fun xs => xs.map (fun _ => some 1),
         fun xs _ => xs.map (fun _ => some 1), fun xs _ _ => xs.map (fun _ => some 1)⟩
        ⟨fun _ => 0, fun _ => 0, fun _ => 0, fun _ => 0,
         fun _ => 0, fun _ => 0, fun _ => 0, fun _ => 0⟩ 1
        [(0, some 1), (1, some 1), (2, some 1)] ∧
    (((keptRows [(0, some 1), (1, some 1), (2, some 1)]).map
        (fun r => r.2.map (fun q => ((q : ℚ) : ℝ)))).getD 1 none).isSome = true := by
  have hmem : 1 ∈ assemblerSurvivors
      ⟨fun xs _ => xs.map (fun _ => some 1), fun xs => xs.map (fun _ => some 1),
       fun xs _ => xs.map (fun _ => some 1), fun xs _ _ => xs.map (fun _ => some 1)⟩
      ⟨fun _ => 0, fun _ => 0, fun _ => 0, fun _ => 0,
       fun _ => 0, fun _ => 0, fun _ => 0, fun _ => 0⟩ 1
      [(0, some 1), (1, some 1), (2, some 1)] := by
    unfold assemblerSurvivors assemblerCols
    simp only [keptRows, midFilter, midKeep, calendarCols, normOffsets, trendCombinations,
      shiftm1, normReturnCol, winsSrs, SEC_PER_DAY]
    decide
  have hcol : ((keptRows [(0, some 1), (1, some 1), (2, some 1)]).map
        (fun r => r.2.map (fun q => ((q : ℚ) : ℝ))))
      ∈ assemblerCols
        ⟨fun xs _ => xs.map (fun _ => some 1), fun xs => xs.map (fun _ => some 1),
         fun xs _ => xs.map (fun _ => some 1), fun xs _ _ => xs.map (fun _ => some 1)⟩
        ⟨fun _ => 0, fun _ => 0, fun _ => 0, fun _ => 0,
         fun _ => 0, fun _ => 0, fun _ => 0, fun _ => 0⟩ 1
        [(0, some 1), (1, some 1), (2, some 1)] :=
    List.getElem?_mem (rfl : (assemblerCols _ _ _ _)[0]? = _)
  exact ⟨hmem, C7_output_no_missing.1 _ _ _ _ _ _ hmem hcol⟩

end DataPrep
